import Mathlib

/- Verification model of the Tokenizer-Study streaming pipeline:
   src/loader.py (segmenter), src/tokens.py (vocabulary builder) and
   src/db.py (LevelDB wrapper).  Text is modelled as lists of characters,
   files as lists of lines (or CSV rows), and the LevelDB key-value store
   as an association list of entries in iteration order. -/

/-- Text: a Python string is modelled as its list of characters. -/
abbrev Str := List Char

/-- Python str.strip: remove leading and trailing whitespace. -/
def strip (s : Str) : Str :=
  ((s.dropWhile Char.isWhitespace).reverse.dropWhile Char.isWhitespace).reverse

/-- Number of bytes of the UTF-8 encoding of one character. -/
def charUtf8Size (c : Char) : Nat :=
  if c.toNat < 128 then 1 else if c.toNat < 2048 then 2
  else if c.toNat < 65536 then 3 else 4

/-- Number of bytes of the UTF-8 encoding of a string
    (Python len of the encoded key or value). -/
def utf8Len (s : Str) : Nat := (s.map charUtf8Size).sum

/-- The literal header written by the dump functions of db.py. -/
def wordsStr : Str := ['W', 'o', 'r', 'd', 's']

/-- Entries of the underlying LevelDB database, in iteration order. -/
abbrev Entries := List (Str × Str)

/-- Keys of a database, in iteration order. -/
def keys (d : Entries) : List Str := d.map Prod.fst

/-- plyvel db.get: the value stored under a key, if any. -/
def Plyvel.get : Entries → Str → Option Str
  | [], _ => none
  | p :: rest, k => if p.1 = k then some p.2 else Plyvel.get rest k

/-- plyvel db.put (and batch.put): overwrite the value under an existing key,
    otherwise add the entry. -/
def Plyvel.put (d : Entries) (k v : Str) : Entries :=
  if k ∈ keys d then d.map (fun p => if p.1 = k then (k, v) else p)
  else d ++ [(k, v)]

/-- The LevelDB wrapper class of src/db.py: the contents of the underlying
    database plus the db_closed flag set by close. -/
structure LevelDB where
  entries : Entries
  db_closed : Bool
deriving DecidableEq

/-- A freshly created empty database (LevelDB.__init__ on a fresh path). -/
def emptyDB : LevelDB := ⟨[], false⟩

/-- LevelDB.add_batch: put every pair of the batch, in order, as one write batch. -/
def LevelDB.add_batch (h : LevelDB) (words : List (Str × Str)) : LevelDB :=
  ⟨words.foldl (fun d p => Plyvel.put d p.1 p.2) h.entries, h.db_closed⟩

/-- LevelDB.check: true when db.get(key) is None, i.e. when the key is absent. -/
def LevelDB.check (h : LevelDB) (key : Str) : Bool :=
  (Plyvel.get h.entries key).isNone

/-- LevelDB.find_size: one scan accumulating the total byte size and the entry
    count, returned as (db_size, db_length). -/
def LevelDB.find_size (h : LevelDB) : Nat × Nat :=
  h.entries.foldl (fun acc p => (acc.1 + (utf8Len p.1 + utf8Len p.2), acc.2 + 1)) (0, 0)

/-- LevelDB.close: close the underlying database once; a later call finds
    db_closed set and does nothing. -/
def LevelDB.close (h : LevelDB) : LevelDB :=
  if h.db_closed then h else ⟨h.entries, true⟩

/-- LevelDB.dump_to_csv: the destination is opened in write mode, so the previous
    contents are discarded; a Words header row is written, then one row per key. -/
def LevelDB.dump_to_csv (h : LevelDB) (_prev : List (List Str)) : List (List Str) :=
  [wordsStr] :: h.entries.map (fun p => [p.1])

/-- LevelDB.dump_to_txt: the destination is opened in append mode; a Words header
    line is written after the previous contents, then one line per entry
    (key only, or key comma value). -/
def LevelDB.dump_to_txt (h : LevelDB) (prev : List Str) (only_tokens : Bool) : List Str :=
  prev ++ wordsStr :: h.entries.map (fun p => if only_tokens then p.1 else p.1 ++ [','] ++ p.2)

/-- LevelDB.recover_db_from_txt: put(strip(line), strip(line)) for every line of
    the file, with no emptiness filter. -/
def LevelDB.recover_db_from_txt (h : LevelDB) (lines : List Str) : LevelDB :=
  ⟨lines.foldl (fun d l => Plyvel.put d (strip l) (strip l)) h.entries, h.db_closed⟩

/-- LevelDB.recover_from_csv: put(strip(row[0]), strip(row[0])) for every
    non-empty row of the file. -/
def LevelDB.recover_from_csv (h : LevelDB) (rows : List (List Str)) : LevelDB :=
  ⟨rows.foldl (fun d row =>
      match row with
      | [] => d
      | w :: _ => Plyvel.put d (strip w) (strip w)) h.entries, h.db_closed⟩

/-- The segmenter batch size (loader.py BATCH_SIZE). -/
def BATCH_SIZE : Nat := 100000

/-- The sentence delimiters recognised by read_segments. -/
def isDelim (c : Char) : Bool := c = '।' || c = '!'

/-- State of read_segments: the batches already passed to writefn, the pending
    segments batch, and the parts of the segment in progress. -/
structure LoaderState where
  written : List (List Str)
  segments : List Str
  current : List Str
deriving DecidableEq

/-- One character of the inner loop of read_segments, threaded with temp_segment:
    a delimiter with a non-empty accumulator closes the segment in progress and
    flushes a full pending batch to writefn; any other character accumulates. -/
def charStep (p : LoaderState × Str) (c : Char) : LoaderState × Str :=
  if isDelim c then
    if p.2.isEmpty then p
    else
      let cur := p.1.current ++ [strip p.2]
      let segs := p.1.segments ++ [List.intercalate [' '] cur]
      if BATCH_SIZE ≤ segs.length then (⟨p.1.written ++ [segs], [], []⟩, ([] : Str))
      else (⟨p.1.written, segs, []⟩, ([] : Str))
  else (p.1, p.2 ++ [c])

/-- One line of read_segments: strip it, skip it when empty, otherwise scan its
    characters and keep a trailing unterminated part in current_segment. -/
def lineStep (st : LoaderState) (line : Str) : LoaderState :=
  let l := strip line
  if l.isEmpty then st
  else
    let q := l.foldl charStep (st, ([] : Str))
    if q.2.isEmpty then q.1
    else ⟨q.1.written, q.1.segments, q.1.current ++ [strip q.2]⟩

/-- read_segments of loader.py on the lines of the input file.  After the read
    loop the trailing open parts are appended to the segments list, but writefn
    is never called on the remaining partial batch. -/
def read_segments (lines : List Str) : LoaderState :=
  let s := lines.foldl lineStep ⟨[], [], []⟩
  if s.current.isEmpty then s
  else ⟨s.written, s.segments ++ [List.intercalate [' '] s.current], s.current⟩

/-- All segments ever appended to the segments list by read_segments, in order. -/
def formedSegments (lines : List Str) : List Str :=
  (read_segments lines).written.flatten ++ (read_segments lines).segments

/-- All segments actually passed to writefn by read_segments, in order. -/
def deliveredSegments (lines : List Str) : List Str :=
  (read_segments lines).written.flatten

/-- Split a line at the sentence delimiters; n delimiters give n+1 chunks,
    possibly empty, in source order. -/
def splitD : Str → List Str
  | [] => [[]]
  | c :: cs =>
    match splitD cs with
    | [] => [[]]
    | h :: t => if isDelim c then [] :: h :: t else (c :: h) :: t

/-- Modelled from the spec: a delimiter-terminated chunk with non-empty raw text
    contributes its trimmed text as the final part, and the parts are joined
    with single spaces and emitted as one segment; an empty chunk is skipped. -/
def refStep (acc : List Str × List Str) (chunk : Str) : List Str × List Str :=
  if chunk.isEmpty then acc
  else (acc.1 ++ [List.intercalate [' '] (acc.2 ++ [strip chunk])], [])

/-- Modelled from the spec: a trailing unterminated chunk with non-empty raw text
    is carried as an open part into the next line. -/
def refOpen (acc : List Str × List Str) (chunk : Str) : List Str × List Str :=
  if chunk.isEmpty then acc else (acc.1, acc.2 ++ [strip chunk])

/-- Modelled from the spec: one line contributes all but its last chunk as
    delimiter-terminated segments and its last chunk as an open part. -/
def refLine (acc : List Str × List Str) (line : Str) : List Str × List Str :=
  let l := strip line
  if l.isEmpty then acc
  else refOpen ((splitD l).dropLast.foldl refStep acc) ((splitD l).getLastD [])

/-- Modelled from the spec (section 8): the segments of an input in source order,
    each the space-join of the trimmed non-empty raw chunks it spans, the pending
    open parts emitted as a final segment at end of input. -/
def refSegments (lines : List Str) : List Str :=
  let acc := lines.foldl refLine ([], [])
  if acc.2.isEmpty then acc.1 else acc.1 ++ [List.intercalate [' '] acc.2]

/-- The segments appended so far by a loader state, with the batching forgotten. -/
def formed (st : LoaderState) : List Str := st.written.flatten ++ st.segments

/-- A loader state with the batching forgotten: segments emitted so far, open
    parts, and the character accumulator. -/
def stateAbs (p : LoaderState × Str) : (List Str × List Str) × Str :=
  ((formed p.1, p.1.current), p.2)

/-- charStep with the batching forgotten. -/
def simpleChar (q : (List Str × List Str) × Str) (c : Char) : (List Str × List Str) × Str :=
  if isDelim c then
    if q.2.isEmpty then q
    else ((q.1.1 ++ [List.intercalate [' '] (q.1.2 ++ [strip q.2])], []), ([] : Str))
  else (q.1, q.2 ++ [c])

/-- Processing one delimiter-closed chunk in the batching-free model. -/
def closedChunk (q : (List Str × List Str) × Str) (c : Str) : (List Str × List Str) × Str :=
  if (q.2 ++ c).isEmpty then q
  else ((q.1.1 ++ [List.intercalate [' '] (q.1.2 ++ [strip (q.2 ++ c)])], []), ([] : Str))

/-- Chunkwise version of the character scan: every chunk but the last is closed
    by a delimiter, the last stays in the accumulator. -/
def simpleChunks (q : (List Str × List Str) × Str) : List Str → (List Str × List Str) × Str
  | [] => q
  | [c] => (q.1, q.2 ++ c)
  | c :: c2 :: rest => simpleChunks (closedChunk q c) (c2 :: rest)

/-- The vocabulary-builder batch size (tokens.py batch_size). -/
def batch_size : Nat := 100000

/-- State of the token loop of main_fn: the store, the pending unique_words
    batch, and the sizes of the add_batch calls made so far, in order. -/
structure TokState where
  db : LevelDB
  unique_words : List (Str × Str)
  calls : List Nat
deriving DecidableEq

/-- One token of the inner loop of main_fn: a token that passes the existence
    check joins unique_words, and a pending batch that has reached the batch
    size is flushed with add_batch. -/
def tokStep (B : Nat) (st : TokState) (token : Str) : TokState :=
  let uw := if st.db.check token then st.unique_words ++ [(token, token)] else st.unique_words
  if B ≤ uw.length then ⟨st.db.add_batch uw, [], st.calls ++ [uw.length]⟩
  else ⟨st.db, uw, st.calls⟩

/-- The per-segment part of main_fn: the token loop followed by the flush of a
    non-empty pending batch at the end of the segment. -/
def segment_loop (B : Nat) (db : LevelDB) (tokens : List Str) : LevelDB × List Nat :=
  let st := tokens.foldl (tokStep B) ⟨db, [], []⟩
  if st.unique_words.isEmpty then (st.db, st.calls)
  else (st.db.add_batch st.unique_words, st.calls ++ [st.unique_words.length])

/-- main_fn of tokens.py over the segments of the intermediate file; the
    tokenizer is an external collaborator, so each segment is given by its
    filtered token list.  Returns the final store and the sizes of all
    add_batch calls, in order. -/
def main_fn (B : Nat) (db : LevelDB) (segs : List (List Str)) : LevelDB × List Nat :=
  segs.foldl (fun acc ts =>
    let r := segment_loop B acc.1 ts
    (r.1, acc.2 ++ r.2)) (db, [])

/- Helper lemmas about the store model. -/

theorem get_eq_none_iff (d : Entries) (k : Str) :
    Plyvel.get d k = none ↔ k ∉ keys d := by
  induction d with
  | nil => simp [Plyvel.get, keys]
  | cons p rest ih =>
    by_cases hp : p.1 = k
    · simp [Plyvel.get, hp, keys]
    · simp only [Plyvel.get, if_neg hp, keys, List.map_cons, List.mem_cons, ih]
      constructor
      · rintro h (rfl | hk)
        · exact hp rfl
        · exact h hk
      · intro h hk
        exact h (Or.inr hk)

theorem check_true_iff (h : LevelDB) (k : Str) :
    h.check k = true ↔ k ∉ keys h.entries := by
  rw [LevelDB.check, Option.isNone_iff_eq_none, get_eq_none_iff]

theorem mem_keys_put (d : Entries) (a v k : Str) :
    k ∈ keys (Plyvel.put d a v) ↔ k ∈ keys d ∨ k = a := by
  unfold Plyvel.put
  by_cases ha : a ∈ keys d
  · rw [if_pos ha]
    have hkeys : keys (d.map (fun p => if p.1 = a then (a, v) else p)) = keys d := by
      unfold keys
      rw [List.map_map]
      apply List.map_congr_left
      intro p _
      by_cases hpa : p.1 = a
      · simp [hpa]
      · simp [hpa]
    rw [hkeys]
    constructor
    · exact Or.inl
    · rintro (hk | rfl)
      · exact hk
      · exact ha
  · rw [if_neg ha]
    unfold keys
    simp

theorem put_of_not_mem (d : Entries) (a v : Str) (ha : a ∉ keys d) :
    Plyvel.put d a v = d ++ [(a, v)] := by
  simp [Plyvel.put, ha]

theorem keys_foldl_put (ws : List (Str × Str)) :
    ∀ (d : Entries) (k : Str),
      k ∈ keys (ws.foldl (fun d p => Plyvel.put d p.1 p.2) d) ↔
        k ∈ keys d ∨ k ∈ ws.map Prod.fst := by
  induction ws with
  | nil => simp
  | cons w rest ih =>
    intro d k
    simp only [List.foldl_cons, ih, mem_keys_put, List.map_cons, List.mem_cons]
    tauto

theorem mem_keys_add_batch (h : LevelDB) (ws : List (Str × Str)) (k : Str) :
    k ∈ keys (h.add_batch ws).entries ↔ k ∈ keys h.entries ∨ k ∈ ws.map Prod.fst := by
  rw [LevelDB.add_batch]
  exact keys_foldl_put ws h.entries k

theorem keys_foldl_put_strip (ls : List Str) :
    ∀ (d : Entries) (k : Str),
      k ∈ keys (ls.foldl (fun d l => Plyvel.put d (strip l) (strip l)) d) ↔
        k ∈ keys d ∨ k ∈ ls.map strip := by
  induction ls with
  | nil => simp
  | cons l rest ih =>
    intro d k
    simp only [List.foldl_cons, ih, mem_keys_put, List.map_cons, List.mem_cons]
    tauto

theorem mem_keys_recover_txt (h : LevelDB) (ls : List Str) (k : Str) :
    k ∈ keys (h.recover_db_from_txt ls).entries ↔
      k ∈ keys h.entries ∨ k ∈ ls.map strip := by
  rw [LevelDB.recover_db_from_txt]
  exact keys_foldl_put_strip ls h.entries k

/-- Claim C2: for every key k and every store state, check k returns true
    if and only if k is currently absent from the store, i.e. exactly when a
    get of k yields no entry. -/
theorem C2_check_true_iff_absent (h : LevelDB) (k : Str) :
    h.check k = true ↔ (k ∉ keys h.entries ∧ Plyvel.get h.entries k = none) := by
  have hg := get_eq_none_iff h.entries k
  rw [LevelDB.check, Option.isNone_iff_eq_none]
  tauto

/-- Claim C9: close is idempotent: a second close is a no-op that leaves the
    store state unchanged. -/
theorem C9_close_idempotent (h : LevelDB) :
    h.close.close = h.close := by
  unfold LevelDB.close
  by_cases hc : h.db_closed
  · simp [hc]
  · simp [hc]

/-- Claim C10: dump_to_csv truncates the destination (the result does not
    depend on the previous file contents) and the result is exactly the Words
    header row followed by one row per store key, whereas dump_to_txt appends
    its output after the previous file contents. -/
theorem C10_dump_csv_truncates (h : LevelDB) (prev prev2 : List (List Str))
    (prevT : List Str) (b : Bool) :
    h.dump_to_csv prev = h.dump_to_csv prev2 ∧
      h.dump_to_csv prev = [wordsStr] :: h.entries.map (fun p => [p.1]) ∧
      h.dump_to_txt prevT b = prevT ++ h.dump_to_txt [] b := by
  refine ⟨rfl, rfl, ?_⟩
  simp [LevelDB.dump_to_txt]

/-- Claim C5, counterexample: a recovery file consisting of one blank line makes
    recover_db_from_txt perform put on the empty string, creating an
    empty-string key, contrary to the claim that put is performed only for
    lines that are non-empty after trimming. -/
theorem C5_cex_blank_line_creates_empty_key :
    ([] : Str) ∈ keys ((emptyDB.recover_db_from_txt [[' ']]).entries) ∧
      strip [' '] = ([] : Str) := by
  decide

/-- Claim C5 as amended: recovery from text performs put(w, w) for every line w
    after trimming, including lines that are empty after trimming (so a blank
    line creates an empty-string key); the resulting key set is the previous
    key set together with the trimmed lines, and re-running the same recovery
    leaves the final key set unchanged (idempotence). -/
theorem C5_recover_puts_every_line (h : LevelDB) (ls : List Str) (k : Str) :
    (k ∈ keys (h.recover_db_from_txt ls).entries ↔
        k ∈ keys h.entries ∨ k ∈ ls.map strip) ∧
      (k ∈ keys ((h.recover_db_from_txt ls).recover_db_from_txt ls).entries ↔
        k ∈ keys (h.recover_db_from_txt ls).entries) := by
  constructor
  · exact mem_keys_recover_txt h ls k
  · rw [mem_keys_recover_txt, mem_keys_recover_txt]
    tauto

/-- Claim C4, counterexample: dumping a store whose only key is the single
    letter a to a fresh text file and recovering into a fresh empty store
    yields a store that also contains the header line Words as a key, so the
    key set is not equal to the original one. -/
theorem C4_cex_roundtrip_adds_header :
    wordsStr ∈
        keys ((emptyDB.recover_db_from_txt
          ((⟨[(['a'], ['a'])], false⟩ : LevelDB).dump_to_txt [] true)).entries) ∧
      wordsStr ∉ keys ((⟨[(['a'], ['a'])], false⟩ : LevelDB).entries) := by
  decide

/-- Claim C4 as amended: for a store whose keys are unchanged by trimming,
    dump_to_txt to a fresh file followed by recover_db_from_txt of that file
    into a fresh empty store yields a store whose key set is the key set of
    the original store together with the header string Words. -/
theorem C4_roundtrip_keyset (h : LevelDB) (k : Str)
    (hstrip : ∀ x ∈ keys h.entries, strip x = x) :
    k ∈ keys ((emptyDB.recover_db_from_txt (h.dump_to_txt [] true)).entries) ↔
      k ∈ keys h.entries ∨ k = wordsStr := by
  rw [mem_keys_recover_txt]
  have hdump : h.dump_to_txt [] true = wordsStr :: keys h.entries := by
    simp [LevelDB.dump_to_txt, keys]
  rw [hdump]
  simp only [emptyDB, keys, List.map_nil, List.not_mem_nil, false_or, List.map_cons,
    List.mem_cons]
  have hws : strip wordsStr = wordsStr := by decide
  rw [hws]
  constructor
  · rintro (rfl | hk)
    · exact Or.inr rfl
    · obtain ⟨x, hx, rfl⟩ := List.mem_map.mp hk
      exact Or.inl (by rw [hstrip x hx]; exact hx)
  · rintro (hk | rfl)
    · exact Or.inr (List.mem_map.mpr ⟨k, hk, hstrip k hk⟩)
    · exact Or.inl rfl

/-- Claim C4 witness: the amended round-trip key-set law applied to the store
    with the single entry a. -/
theorem C4_roundtrip_keyset_witness :
    (∀ x ∈ keys ((⟨[(['a'], ['a'])], false⟩ : LevelDB)).entries, strip x = x) ∧
      (['a'] ∈ keys ((emptyDB.recover_db_from_txt
          ((⟨[(['a'], ['a'])], false⟩ : LevelDB).dump_to_txt [] true)).entries) ↔
        ['a'] ∈ keys ((⟨[(['a'], ['a'])], false⟩ : LevelDB)).entries ∨ ['a'] = wordsStr) :=
  ⟨by decide, C4_roundtrip_keyset ⟨[(['a'], ['a'])], false⟩ ['a'] (by decide)⟩

/-- Claim C1: read_segments forms the final segment at end of input (one segment
    for the single delimiter-free line ab) but delivers no batch to writefn: the
    final partial batch is silently dropped at EOF, against the claim and the
    documented contract of the Segmenter. -/
theorem C1_final_batch_never_delivered :
    formedSegments [['a', 'b']] = [['a', 'b']] ∧
      deliveredSegments [['a', 'b']] = [] := by
  decide

theorem foldl_put_fresh (ps : List (Str × Str)) :
    ∀ d : Entries, (∀ p ∈ ps, p.1 ∉ keys d) → (ps.map Prod.fst).Nodup →
      ps.foldl (fun d p => Plyvel.put d p.1 p.2) d = d ++ ps := by
  induction ps with
  | nil => intro d _ _; simp
  | cons p rest ih =>
    intro d habs hnd
    have hp : p.1 ∉ keys d := habs p (List.mem_cons_self p rest)
    rw [List.foldl_cons, put_of_not_mem d p.1 p.2 hp,
      ih (d ++ [(p, p.2).1]) ?_ ?_]
    · simp
    · intro q hq
      have hqd : q.1 ∉ keys d := habs q (List.mem_cons_of_mem p hq)
      have hqp : q.1 ≠ p.1 := by
        intro hqp
        have : p.1 ∈ rest.map Prod.fst := hqp ▸ List.mem_map_of_mem Prod.fst hq
        exact (List.nodup_cons.mp (by simpa using hnd)).1 this
      simp only [keys, List.map_append, List.mem_append, List.map_cons]
      rintro (hk | hk)
      · exact hqd hk
      · simp at hk
        exact hqp hk
    · exact (List.nodup_cons.mp (by simpa using hnd)).2

theorem find_size_foldl (l : Entries) :
    ∀ a b : Nat,
      l.foldl (fun acc p => (acc.1 + (utf8Len p.1 + utf8Len p.2), acc.2 + 1)) (a, b) =
        (a + (l.map fun p => utf8Len p.1 + utf8Len p.2).sum, b + l.length) := by
  induction l with
  | nil => intro a b; simp
  | cons p rest ih =>
    intro a b
    rw [List.foldl_cons, ih]
    simp only [List.map_cons, List.sum_cons, List.length_cons, Prod.mk.injEq]
    constructor <;> omega

theorem utf8Len_of_all_one (t : Str) (h1 : ∀ c ∈ t, charUtf8Size c = 1) :
    utf8Len t = t.length := by
  unfold utf8Len
  induction t with
  | nil => simp
  | cons c cs ih =>
    simp only [List.map_cons, List.sum_cons, List.length_cons,
      h1 c (List.mem_cons_self c cs)]
    rw [ih (fun x hx => h1 x (List.mem_cons_of_mem c hx))]
    omega

/-- Claim C8: inserting M distinct tokens whose UTF-8 encodings are one byte per
    character, with key = value = token, into a fresh store makes find_size
    return the total byte size, equal to the sum of twice each token length,
    together with the entry count M. -/
theorem C8_find_size (tokens : List Str) (hnd : tokens.Nodup)
    (h1 : ∀ t ∈ tokens, ∀ c ∈ t, charUtf8Size c = 1) :
    (emptyDB.add_batch (tokens.map fun t => (t, t))).find_size =
      ((tokens.map fun t => 2 * t.length).sum, tokens.length) := by
  have hentries : (emptyDB.add_batch (tokens.map fun t => (t, t))).entries =
      tokens.map fun t => (t, t) := by
    rw [LevelDB.add_batch]
    have hfst : ((tokens.map fun t => (t, t)).map Prod.fst) = tokens := by
      simp [List.map_map, Function.comp_def]
    have := foldl_put_fresh (tokens.map fun t => (t, t)) ([] : Entries)
      (by intro p _; simp [keys]) (by rw [hfst]; exact hnd)
    simpa [emptyDB] using this
  rw [LevelDB.find_size, hentries, find_size_foldl]
  simp only [List.map_map, List.length_map, Nat.zero_add]
  congr 1
  apply congrArg
  apply List.map_congr_left
  intro t ht
  have := utf8Len_of_all_one t (h1 t ht)
  simp only [Function.comp_apply]
  omega

/-- Claim C8 witness: the size law applied to the two distinct one-byte-per-
    character tokens a and bc, giving total bytes 6 and entry count 2. -/
theorem C8_find_size_witness :
    ([['a'], ['b', 'c']] : List Str).Nodup ∧
      (∀ t ∈ ([['a'], ['b', 'c']] : List Str), ∀ c ∈ t, charUtf8Size c = 1) ∧
      (emptyDB.add_batch (([['a'], ['b', 'c']] : List Str).map fun t => (t, t))).find_size =
        (6, 2) :=
  ⟨by decide, by decide,
    (C8_find_size [['a'], ['b', 'c']] (by decide) (by decide)).trans (by decide)⟩

theorem segment_loop_single_new (B : Nat) (h : LevelDB) (t : Str)
    (hc : h.check t = true) :
    segment_loop B h [t] = (h.add_batch [(t, t)], [1]) := by
  by_cases hB1 : B ≤ 1
  · simp [segment_loop, tokStep, hc, hB1]
  · simp [segment_loop, tokStep, hc, hB1]

theorem segment_loop_single_old (B : Nat) (h : LevelDB) (t : Str)
    (hB : 0 < B) (hc : h.check t = false) :
    segment_loop B h [t] = (h, []) := by
  have hB0 : ¬ B ≤ 0 := by omega
  simp [segment_loop, tokStep, hc, hB0]

/-- Claim C7: inserting the same token twice through two separate
    check-then-add_batch cycles, the second check running after the batch of
    the first cycle was flushed, leaves exactly one store entry with that key. -/
theorem C7_two_cycles_one_entry (B : Nat) (db : LevelDB) (t : Str)
    (hB : 0 < B) (ht : t ∉ keys db.entries) :
    (keys ((segment_loop B (segment_loop B db [t]).1 [t]).1).entries).count t = 1 := by
  have hc1 : db.check t = true := (check_true_iff db t).mpr ht
  rw [segment_loop_single_new B db t hc1]
  have hmem : t ∈ keys (db.add_batch [(t, t)]).entries := by
    rw [mem_keys_add_batch]
    right
    simp
  have hc2 : (db.add_batch [(t, t)]).check t = false := by
    rw [Bool.eq_false_iff]
    intro htrue
    exact ((check_true_iff _ t).mp htrue) hmem
  rw [segment_loop_single_old B _ t hB hc2]
  have hentries : (db.add_batch [(t, t)]).entries = db.entries ++ [(t, t)] := by
    rw [LevelDB.add_batch]
    simp [put_of_not_mem db.entries t t ht]
  rw [hentries]
  simp only [keys] at ht ⊢
  rw [List.map_append, List.count_append]
  simp [List.count_eq_zero.mpr ht]

/-- Claim C7 witness: the two-cycle dedup law applied with the batch size of
    tokens.py, an empty store and the token a. -/
theorem C7_two_cycles_one_entry_witness :
    0 < batch_size ∧ (['a'] ∉ keys emptyDB.entries) ∧
      (keys ((segment_loop batch_size
          (segment_loop batch_size emptyDB [['a']]).1 [['a']]).1).entries).count ['a'] = 1 :=
  ⟨by decide, by decide,
    C7_two_cycles_one_entry batch_size emptyDB ['a'] (by decide) (by decide)⟩

theorem tokLoop_spec (B : Nat) (hB : 0 < B) (ts : List Str) :
    ∀ (db : LevelDB) (uw : List (Str × Str)) (cs : List Nat),
      uw.length < B → ts.Nodup →
      (∀ t ∈ ts, t ∉ keys db.entries) → (∀ t ∈ ts, t ∉ uw.map Prod.fst) →
      ((ts.foldl (tokStep B) ⟨db, uw, cs⟩).calls
          = cs ++ List.replicate ((uw.length + ts.length) / B) B) ∧
        (ts.foldl (tokStep B) ⟨db, uw, cs⟩).unique_words.length
          = (uw.length + ts.length) % B ∧
        ∀ k, (k ∈ keys (ts.foldl (tokStep B) ⟨db, uw, cs⟩).db.entries
              ∨ k ∈ (ts.foldl (tokStep B) ⟨db, uw, cs⟩).unique_words.map Prod.fst)
            ↔ (k ∈ keys db.entries ∨ k ∈ uw.map Prod.fst ∨ k ∈ ts) := by
  induction ts with
  | nil =>
    intro db uw cs hlen hnd hdb huw
    simp only [List.foldl_nil, List.length_nil, Nat.add_zero]
    refine ⟨?_, ?_, ?_⟩
    · rw [Nat.div_eq_of_lt hlen]
      simp
    · rw [Nat.mod_eq_of_lt hlen]
    · intro k
      simp
  | cons t rest ih =>
    intro db uw cs hlen hnd hdb huw
    have hndr := (List.nodup_cons.mp hnd).2
    have htr : t ∉ rest := (List.nodup_cons.mp hnd).1
    have hct : db.check t = true :=
      (check_true_iff db t).mpr (hdb t (List.mem_cons_self t rest))
    rw [List.foldl_cons]
    by_cases hflush : B ≤ uw.length + 1
    · have hBeq : uw.length + 1 = B := by omega
      have hstep : tokStep B ⟨db, uw, cs⟩ t
          = ⟨db.add_batch (uw ++ [(t, t)]), [], cs ++ [uw.length + 1]⟩ := by
        simp [tokStep, hct, hflush]
      rw [hstep]
      have hdb2 : ∀ r ∈ rest, r ∉ keys (db.add_batch (uw ++ [(t, t)])).entries := by
        intro r hr
        rw [mem_keys_add_batch]
        rintro (hk | hk)
        · exact hdb r (List.mem_cons_of_mem t hr) hk
        · rw [List.map_append] at hk
          rcases List.mem_append.mp hk with hk | hk
          · exact huw r (List.mem_cons_of_mem t hr) hk
          · simp only [List.map_cons, List.map_nil, List.mem_singleton] at hk
            exact htr (hk ▸ hr)
      obtain ⟨hcalls, hlen2, hkeys⟩ :=
        ih (db.add_batch (uw ++ [(t, t)])) [] (cs ++ [uw.length + 1])
          (by simpa using hB) hndr hdb2 (by simp)
      refine ⟨?_, ?_, ?_⟩
      · rw [hcalls, hBeq]
        have harith : (uw.length + (t :: rest).length) / B = rest.length / B + 1 := by
          rw [List.length_cons]
          have h1 : uw.length + (rest.length + 1) = rest.length + B := by omega
          rw [h1, Nat.add_div_right _ hB]
        rw [harith]
        simp [List.replicate_succ, List.append_assoc]
      · rw [hlen2]
        rw [List.length_cons, List.length_nil]
        have h1 : uw.length + (rest.length + 1) = rest.length + B := by omega
        rw [h1, Nat.add_mod_right, Nat.zero_add]
      · intro k
        refine (hkeys k).trans ?_
        rw [mem_keys_add_batch, List.map_append]
        simp only [List.map_cons, List.map_nil, List.mem_append, List.mem_singleton,
          List.not_mem_nil, List.mem_cons]
        tauto
    · have hstep : tokStep B ⟨db, uw, cs⟩ t = ⟨db, uw ++ [(t, t)], cs⟩ := by
        simp [tokStep, hct, hflush]
      rw [hstep]
      have huw2 : ∀ r ∈ rest, r ∉ (uw ++ [(t, t)]).map Prod.fst := by
        intro r hr
        rw [List.map_append]
        intro hk
        rcases List.mem_append.mp hk with hk | hk
        · exact huw r (List.mem_cons_of_mem t hr) hk
        · simp only [List.map_cons, List.map_nil, List.mem_singleton] at hk
          exact htr (hk ▸ hr)
      obtain ⟨hcalls, hlen2, hkeys⟩ := ih db (uw ++ [(t, t)]) cs
        (by rw [List.length_append, List.length_cons, List.length_nil]; omega)
        hndr (fun r hr => hdb r (List.mem_cons_of_mem t hr)) huw2
      have hXY : (uw ++ [(t, t)]).length + rest.length = uw.length + (t :: rest).length := by
        rw [List.length_append, List.length_cons, List.length_cons, List.length_nil]
        omega
      refine ⟨?_, ?_, ?_⟩
      · rw [hcalls, hXY]
      · rw [hlen2, hXY]
      · intro k
        refine (hkeys k).trans ?_
        simp only [List.map_append, List.map_cons, List.map_nil, List.mem_append,
          List.mem_singleton, List.mem_cons]
        tauto

theorem ceil_calls_length (n B : Nat) (hB : 0 < B) :
    (List.replicate (n / B) B ++ if n % B = 0 then ([] : List Nat) else [n % B]).length
      = (n + B - 1) / B := by
  obtain ⟨m, hmn⟩ : ∃ m, B * (n / B) = m := ⟨_, rfl⟩
  have hmod := Nat.div_add_mod n B
  rw [hmn] at hmod
  have hmodlt : n % B < B := Nat.mod_lt n hB
  by_cases h0 : n % B = 0
  · rw [if_pos h0]
    simp only [List.append_nil, List.length_replicate]
    have h1 : n + B - 1 = B * (n / B) + (B - 1) := by rw [hmn]; omega
    rw [h1, Nat.mul_add_div hB, Nat.div_eq_of_lt (show B - 1 < B by omega)]
    omega
  · rw [if_neg h0]
    simp only [List.length_append, List.length_replicate, List.length_cons,
      List.length_nil]
    have h1 : n + B - 1 = B * (n / B + 1) + (n % B - 1) := by
      rw [Nat.mul_add, Nat.mul_one, hmn]
      omega
    rw [h1, Nat.mul_add_div hB, Nat.div_eq_of_lt (show n % B - 1 < B by omega)]

/-- Claim C3, counterexample: two segments each contributing one new token make
    main_fn call add_batch twice (the pending batch is flushed at the end of
    every segment), although K = 2 total new tokens with batch size 100000
    should by the claim give a single add_batch call of 2 pairs. -/
theorem C3_cex_flush_per_segment :
    (main_fn batch_size emptyDB [[['a']], [['b']]]).2 = [1, 1] ∧
      (2 + batch_size - 1) / batch_size = 1 := by
  decide

/-- Claim C3 as amended: main_fn flushes the pending batch at the end of every
    segment, so the batch-boundary law holds per segment: a segment
    contributing k new (absent) tokens causes ceil(k/B) add_batch calls, all of
    B pairs except a final one of k mod B pairs when B does not divide k;
    across a run the store receives the concatenation of these per-segment
    call sequences rather than ceil(K/B) calls for the run total K. -/
theorem C3_segment_batches (B : Nat) (db : LevelDB) (ts : List Str)
    (hB : 0 < B) (hnd : ts.Nodup) (habs : ∀ t ∈ ts, t ∉ keys db.entries) :
    (segment_loop B db ts).2
        = List.replicate (ts.length / B) B ++
            (if ts.length % B = 0 then [] else [ts.length % B]) ∧
      (segment_loop B db ts).2.length = (ts.length + B - 1) / B := by
  obtain ⟨hcalls, hlen, _⟩ :=
    tokLoop_spec B hB ts db [] [] (by simpa using hB) hnd habs (by simp)
  simp only [List.length_nil, Nat.zero_add] at hcalls hlen
  have hempiff : (ts.foldl (tokStep B) ⟨db, [], []⟩).unique_words.isEmpty = true ↔
      ts.length % B = 0 := by
    rw [List.isEmpty_iff_length_eq_zero, hlen]
  have hcore : (segment_loop B db ts).2
      = List.replicate (ts.length / B) B ++
          (if ts.length % B = 0 then [] else [ts.length % B]) := by
    by_cases h0 : ts.length % B = 0
    · have hemp : (ts.foldl (tokStep B) ⟨db, [], []⟩).unique_words.isEmpty = true :=
        hempiff.mpr h0
      simp [segment_loop, hemp, h0, hcalls]
    · have hempf : (ts.foldl (tokStep B) ⟨db, [], []⟩).unique_words.isEmpty = false := by
        rw [Bool.eq_false_iff]
        intro hh
        exact h0 (hempiff.mp hh)
      simp [segment_loop, hempf, h0, hcalls, hlen]
  refine ⟨hcore, ?_⟩
  rw [hcore]
  exact ceil_calls_length ts.length B hB

/-- Claim C3 witness: the amended per-segment batch law applied with batch size
    2 to a segment of three fresh tokens: calls of sizes 2 and 1, two calls. -/
theorem C3_segment_batches_witness :
    0 < 2 ∧ ([['a'], ['b'], ['c']] : List Str).Nodup ∧
      (∀ t ∈ ([['a'], ['b'], ['c']] : List Str), t ∉ keys emptyDB.entries) ∧
      (segment_loop 2 emptyDB [['a'], ['b'], ['c']]).2 = [2, 1] ∧
      (segment_loop 2 emptyDB [['a'], ['b'], ['c']]).2.length = 2 :=
  ⟨by decide, by decide, by decide,
    by
      have h := C3_segment_batches 2 emptyDB [['a'], ['b'], ['c']]
        (by decide) (by decide) (by decide)
      exact h.1.trans (by decide),
    by
      have h := C3_segment_batches 2 emptyDB [['a'], ['b'], ['c']]
        (by decide) (by decide) (by decide)
      exact h.2.trans (by decide)⟩

theorem splitD_ne_nil (s : Str) : splitD s ≠ [] := by
  cases s with
  | nil => simp [splitD]
  | cons c cs =>
    cases hcs : splitD cs with
    | nil => simp [splitD, hcs]
    | cons h t =>
      simp only [splitD, hcs]
      split <;> simp

theorem stepAbs (p : LoaderState × Str) (c : Char) :
    stateAbs (charStep p c) = simpleChar (stateAbs p) c := by
  by_cases hd : isDelim c
  · by_cases he : p.2.isEmpty
    · simp [charStep, simpleChar, stateAbs, hd, he]
    · by_cases hb : BATCH_SIZE ≤ p.1.segments.length + 1
      · simp [charStep, simpleChar, stateAbs, formed, hd, he, hb, List.flatten_append,
          List.append_assoc]
      · simp [charStep, simpleChar, stateAbs, formed, hd, he, hb, List.append_assoc]
  · simp [charStep, simpleChar, stateAbs, hd]

theorem foldAbs (l : Str) : ∀ p : LoaderState × Str,
    stateAbs (l.foldl charStep p) = l.foldl simpleChar (stateAbs p) := by
  induction l with
  | nil => intro p; rfl
  | cons c cs ih =>
    intro p
    rw [List.foldl_cons, List.foldl_cons, ih, stepAbs]

theorem closedChunk_nil_temp (acc : List Str × List Str) (c : Str) :
    closedChunk (acc, ([] : Str)) c = (refStep acc c, ([] : Str)) := by
  by_cases hc : c.isEmpty <;> simp [closedChunk, refStep, hc]

theorem closedChunk_append (acc : List Str × List Str) (x : Str) (c : Char) (h : Str) :
    closedChunk (acc, x ++ [c]) h = closedChunk (acc, x) (c :: h) := by
  simp only [closedChunk]
  rw [List.append_assoc, List.singleton_append]
  have hne : (x ++ c :: h).isEmpty = false := by simp
  simp [hne]

theorem chars_to_chunks (l : Str) : ∀ q : (List Str × List Str) × Str,
    l.foldl simpleChar q = simpleChunks q (splitD l) := by
  induction l with
  | nil =>
    intro q
    simp [simpleChunks, splitD]
  | cons c cs ih =>
    intro q
    rw [List.foldl_cons, ih (simpleChar q c)]
    obtain ⟨h, t, hht⟩ : ∃ h t, splitD cs = h :: t := by
      cases hcs : splitD cs with
      | nil => exact absurd hcs (splitD_ne_nil cs)
      | cons h t => exact ⟨h, t, rfl⟩
    by_cases hd : isDelim c
    · have hsp : splitD (c :: cs) = [] :: h :: t := by
        simp [splitD, hht, hd]
      rw [hsp, hht]
      have hcc : simpleChar q c = closedChunk q [] := by
        simp [simpleChar, closedChunk, hd]
      simp only [simpleChunks]
      rw [hcc]
    · have hsp : splitD (c :: cs) = (c :: h) :: t := by
        simp [splitD, hht, hd]
      rw [hsp, hht]
      cases t with
      | nil =>
        simp only [simpleChunks, simpleChar, hd, Bool.false_eq_true, if_false]
        rw [List.append_assoc, List.singleton_append]
      | cons t0 ts =>
        have hstep : closedChunk (simpleChar q c) h = closedChunk q (c :: h) := by
          have hsc : simpleChar q c = (q.1, q.2 ++ [c]) := by simp [simpleChar, hd]
          rw [hsc]
          exact closedChunk_append q.1 q.2 c h
        simp only [simpleChunks]
        rw [hstep]

theorem chunky (chunks : List Str) : ∀ acc : List Str × List Str,
    simpleChunks (acc, ([] : Str)) chunks
      = (chunks.dropLast.foldl refStep acc, chunks.getLastD []) := by
  induction chunks with
  | nil =>
    intro acc
    simp [simpleChunks, List.dropLast, List.getLastD]
  | cons c rest ih =>
    intro acc
    cases rest with
    | nil => simp [simpleChunks, List.dropLast, List.getLastD]
    | cons c2 rest2 =>
      simp only [simpleChunks]
      rw [closedChunk_nil_temp, ih (refStep acc c), List.dropLast_cons₂, List.foldl_cons]
      simp only [List.getLastD_cons]

theorem lineAbs (st : LoaderState) (line : Str) :
    (formed (lineStep st line), (lineStep st line).current)
      = refLine (formed st, st.current) line := by
  by_cases hl : (strip line).isEmpty
  · simp [lineStep, refLine, hl]
  · have hfold := foldAbs (strip line) (st, ([] : Str))
    have hsa : stateAbs (st, ([] : Str)) = ((formed st, st.current), ([] : Str)) := rfl
    rw [hsa, chars_to_chunks, chunky] at hfold
    have hA := congrArg (fun z => z.1.1) hfold
    have hB := congrArg (fun z => z.1.2) hfold
    have hC := congrArg (fun z => z.2) hfold
    simp only [stateAbs] at hA hB hC
    simp only [lineStep, refLine, hl, Bool.false_eq_true, if_false]
    by_cases hq : ((strip line).foldl charStep (st, ([] : Str))).2.isEmpty
    · have hlast : ((splitD (strip line)).getLastD []).isEmpty = true := by
        rw [← hC]
        exact hq
      simp only [hq, if_true, refOpen, hlast]
      rw [hA, hB]
    · have hlast : ((splitD (strip line)).getLastD []).isEmpty = false := by
        rw [← hC]
        exact Bool.eq_false_iff.mpr hq
      simp only [if_neg hq, refOpen, hlast, Bool.false_eq_true, if_false]
      simp only [formed] at hA hB ⊢
      rw [hC, hA, hB]

theorem foldLineAbs (lines : List Str) : ∀ st : LoaderState,
    (formed (lines.foldl lineStep st), (lines.foldl lineStep st).current)
      = lines.foldl refLine (formed st, st.current) := by
  induction lines with
  | nil => intro st; rfl
  | cons l rest ih =>
    intro st
    rw [List.foldl_cons, List.foldl_cons, ih (lineStep st l), lineAbs st l]

theorem formedSegments_eq_branches (lines : List Str) :
    formedSegments lines =
      (if (lines.foldl lineStep ⟨[], [], []⟩).current.isEmpty
       then formed (lines.foldl lineStep ⟨[], [], []⟩)
       else formed (lines.foldl lineStep ⟨[], [], []⟩) ++
              [List.intercalate [' '] (lines.foldl lineStep ⟨[], [], []⟩).current]) := by
  by_cases hc : (lines.foldl lineStep ⟨[], [], []⟩).current.isEmpty
  · simp [formedSegments, read_segments, formed, hc]
  · simp [formedSegments, read_segments, formed, hc, List.append_assoc]

/-- Claim C6, counterexample: the single input line consisting of a delimiter, a
    space and a delimiter makes read_segments emit one empty segment (the raw
    part before the second delimiter is non-empty but whitespace-only), contrary
    to the claim that a segment is never emitted empty. -/
theorem C6_cex_empty_segment :
    formedSegments [['!', ' ', '!']] = [[]] := by
  decide

/-- Claim C6 as amended: segments are emitted in source order, each segment the
    space-join of the trimmed non-empty raw chunks it spans (a final unterminated
    segment included): the emitted list equals the chunkwise reference
    segmentation.  A segment is therefore empty exactly when all its raw chunks
    are whitespace-only, so the never-empty part of the claim fails. -/
theorem C6_segments_match_reference (lines : List Str) :
    formedSegments lines = refSegments lines := by
  rw [formedSegments_eq_branches]
  have h := foldLineAbs lines ⟨[], [], []⟩
  have hinit : (formed ⟨[], [], []⟩, (⟨[], [], []⟩ : LoaderState).current)
      = (([] : List Str), ([] : List Str)) := rfl
  rw [hinit] at h
  have hA := congrArg Prod.fst h
  have hB := congrArg Prod.snd h
  simp only at hA hB
  by_cases hc : (lines.foldl lineStep ⟨[], [], []⟩).current.isEmpty
  · have hacc : (lines.foldl refLine ([], [])).2.isEmpty = true := by
      rw [← hB]
      exact hc
    simp only [refSegments, hc, if_true, hacc]
    exact hA
  · have hacc : (lines.foldl refLine ([], [])).2.isEmpty = false := by
      rw [← hB]
      exact Bool.eq_false_iff.mpr hc
    simp only [refSegments, if_neg hc, hacc, Bool.false_eq_true, if_false]
    rw [hA, hB]
